import Mathlib

/-!
Shallow embedding of `flashbrain.py`, the adaptive flashcard scheduler.

Conventions of the embedding:
- Python `float` data (seconds, timestamps, `now`) is embedded as `ℚ`,
  Python `int` as `ℤ`, strings as `String`; the priority score, which the
  code computes with `math.exp` / `math.log`, is embedded as `ℝ`.
- A file on disk is embedded as `Option (List _Line)`: `none` when the path
  does not exist, otherwise the list of its lines.  A line is either blank
  (the loaders skip it after `strip()`), invalid structured data
  (`json.loads` raises), or a parsed record whose fields are `Option`s
  (a key may be absent from the JSON object).
- Python exceptions are embedded as `Except Err _`: `FileNotFoundError` is
  `Err.notFound`, `json.JSONDecodeError` is `Err.formatError`, `KeyError`
  (a required dict key is absent) is `Err.keyError`, and the `IndexError`
  of `scored[0]` on an empty bank is `Err.emptyBank`.
-/

namespace Flashbrain

/-- Error taxonomy of the scheduler (spec section 7, mapped from the Python
exceptions as described in the file header). -/
inductive Err where
  | notFound
  | formatError
  | keyError
  | emptyBank
  deriving DecidableEq, Repr

/-- `Question` dataclass: `id`, `type`, `tags`.  The `payload` field is the
raw JSON object echoed back verbatim to the caller; it is opaque to the
scheduler (never branched on) and no claim mentions it, so the embedding
omits it. -/
structure Question where
  id : String
  type : String
  tags : List String
  deriving DecidableEq, Repr

/-- `History` dataclass: one attempt-outcome record. -/
structure History where
  question_id : String
  attempts : ℤ
  seconds : ℚ
  correct : Bool
  timestamp : ℚ
  deriving DecidableEq, Repr

/-- A parsed line of the question bank file.  `record` holds the JSON
object's extracted keys; a key absent from the object is `none`. -/
structure RawQuestion where
  id : Option String
  type : Option String
  tags : Option (List String)
  deriving DecidableEq, Repr

inductive QLine where
  | blank
  | invalid
  | record (raw : RawQuestion)
  deriving DecidableEq, Repr

/-- A parsed line of the progress log file. -/
structure RawHistory where
  question_id : Option String
  attempts : Option ℤ
  seconds : Option ℚ
  correct : Option Bool
  timestamp : Option ℚ
  deriving DecidableEq, Repr

inductive HLine where
  | blank
  | invalid
  | record (raw : RawHistory)
  deriving DecidableEq, Repr

/-- `Question.from_dict`: `raw["id"]` and `raw["type"]` raise `KeyError`
when absent; `tags` defaults to `[]`. -/
def Question.from_dict (raw : RawQuestion) : Except Err Question :=
  match raw.id, raw.type with
  | some i, some t => .ok { id := i, type := t, tags := raw.tags.getD [] }
  | _, _ => .error .keyError

/-- `History.from_dict`: `raw["question_id"]` raises `KeyError` when absent;
every other field is read with `raw.get(key, default)`.  The Python default
for `timestamp` is `time.time()` at parse time, embedded as the parameter
`now`. -/
def History.from_dict (now : ℚ) (raw : RawHistory) : Except Err History :=
  match raw.question_id with
  | none => .error .keyError
  | some qid =>
      .ok { question_id := qid,
            attempts := raw.attempts.getD 1,
            seconds := raw.seconds.getD 0,
            correct := raw.correct.getD false,
            timestamp := raw.timestamp.getD now }

/-- The loop body of `load_questions`: blank lines are skipped, `json.loads`
failure raises, then `Question.from_dict` parses; the first exception aborts
the whole load. -/
def parseQuestions : List QLine → Except Err (List Question)
  | [] => .ok []
  | QLine.blank :: rest => parseQuestions rest
  | QLine.invalid :: _ => .error .formatError
  | QLine.record raw :: rest =>
      match Question.from_dict raw with
      | .error e => .error e
      | .ok q =>
          match parseQuestions rest with
          | .error e => .error e
          | .ok qs => .ok (q :: qs)

/-- `load_questions`: a missing file raises `FileNotFoundError`, otherwise
each line is parsed in order. -/
def load_questions (source : Option (List QLine)) : Except Err (List Question) :=
  match source with
  | none => .error .notFound
  | some lines => parseQuestions lines

/-- The loop body of `load_history` (same line discipline as the question
bank loader). -/
def parseHistory (now : ℚ) : List HLine → Except Err (List History)
  | [] => .ok []
  | HLine.blank :: rest => parseHistory now rest
  | HLine.invalid :: _ => .error .formatError
  | HLine.record raw :: rest =>
      match History.from_dict now raw with
      | .error e => .error e
      | .ok r =>
          match parseHistory now rest with
          | .error e => .error e
          | .ok rs => .ok (r :: rs)

/-- `load_history`: a missing file returns `[]` (not an error), otherwise
each line is parsed in order. -/
def load_history (source : Option (List HLine)) (now : ℚ) : Except Err (List History) :=
  match source with
  | none => .ok []
  | some lines => parseHistory now lines

/-- The line `record_result` appends: `json.dumps` writes all five keys, so
every field of the raw record is present. -/
def record_result_line (question_id : String) (attempts : ℤ) (seconds : ℚ)
    (correct : Bool) (now : ℚ) : HLine :=
  HLine.record { question_id := some question_id, attempts := some attempts,
                 seconds := some seconds, correct := some correct,
                 timestamp := some now }

/-- `record_result`: opens the log for appending and writes one serialized
line holding the four reported fields and `timestamp = time.time()` (the
parameter `now`).  Appending to a missing file creates it, so the result is
always an existing file. -/
def record_result (question_id : String) (attempts : ℤ) (seconds : ℚ)
    (correct : Bool) (now : ℚ) (file : Option (List HLine)) : List HLine :=
  (file.getD []) ++ [record_result_line question_id attempts seconds correct now]

/-! ## Priority engine -/

/-- The list comprehension `[h for h in history if h.question_id == qid]`
shared by `_last_seen` and the two totals of `compute_priority`. -/
def matching (history : List History) (qid : String) : List History :=
  history.filter (fun h => h.question_id == qid)

/-- The fold computing Python's `max(filtered, key=lambda h: h.timestamp)`:
a later record replaces the current maximum only when its key is strictly
greater, so the first record attaining the maximum timestamp wins. -/
def maxByTimestamp (x : History) (l : List History) : History :=
  l.foldl (fun acc h => if acc.timestamp < h.timestamp then h else acc) x

/-- `_last_seen`: the matching record with the maximum timestamp, or `none`
when no record matches. -/
def last_seen (history : List History) (qid : String) : Option History :=
  match matching history qid with
  | [] => none
  | x :: xs => some (maxByTimestamp x xs)

/-- `attempts = sum(h.attempts for h in history if h.question_id == question.id)`. -/
def attemptsTotal (history : List History) (qid : String) : ℤ :=
  ((matching history qid).map (fun h => h.attempts)).sum

/-- `incorrect = sum(1 for h in history if h.question_id == question.id and
not h.correct)`: the count of matching records whose `correct` is false. -/
def incorrectTotal (history : List History) (qid : String) : ℤ :=
  (((matching history qid).filter (fun h => !h.correct)).length : ℤ)

/-- `tricky_bonus = 0.25 if "tricky" in question.tags else 0.0`. -/
def tricky_bonus (question : Question) : ℝ :=
  if "tricky" ∈ question.tags then 0.25 else 0.0

/-- `miss_factor = 1.0 + incorrect * 1.2 + max(0, attempts - incorrect) * 0.2`. -/
def miss_factor (history : List History) (qid : String) : ℝ :=
  1.0 + (incorrectTotal history qid : ℝ) * 1.2
    + ((max 0 (attemptsTotal history qid - incorrectTotal history qid) : ℤ) : ℝ) * 0.2

/-- `slow_penalty = min(1.5, (last.seconds / 4.0))`. -/
noncomputable def slow_penalty (last : History) : ℝ :=
  min 1.5 ((last.seconds : ℝ) / 4.0)

/-- `hours_since = (now - last.timestamp) / 3600.0`. -/
noncomputable def hours_since (last : History) (now : ℚ) : ℝ :=
  ((now : ℝ) - (last.timestamp : ℝ)) / 3600.0

/-- `decay = math.exp(hours_since * math.log(0.5) / 18.0)`. -/
noncomputable def decay (last : History) (now : ℚ) : ℝ :=
  Real.exp (hours_since last now * Real.log 0.5 / 18.0)

/-- `compute_priority(question, history, now)`. -/
noncomputable def compute_priority (question : Question) (history : List History)
    (now : ℚ) : ℝ :=
  match last_seen history question.id with
  | none => 5.0 + tricky_bonus question
  | some last =>
      (1 + tricky_bonus question + slow_penalty last)
        * miss_factor history question.id * (1 - decay last now)

/-! ## Scheduler -/

/-- One step of the insertion sort below: insert the pair `x` into an
already-descending list, placing `x` before the first element whose score is
not strictly greater.  An element originally earlier in the list is inserted
later by `sortDesc`, so among equal scores the earlier element stays first —
the stability guarantee of Python's `list.sort(key=..., reverse=True)`. -/
noncomputable def insertDesc (x : ℝ × Question) :
    List (ℝ × Question) → List (ℝ × Question)
  | [] => [x]
  | y :: ys => if x.1 < y.1 then y :: insertDesc x ys else x :: y :: ys

/-- A stable descending sort on the score component, embedding
`scored.sort(key=lambda x: x[0], reverse=True)`. -/
noncomputable def sortDesc : List (ℝ × Question) → List (ℝ × Question)
  | [] => []
  | x :: xs => insertDesc x (sortDesc xs)

/-- The `scored` list built by the loop of `select_next_question`:
`(compute_priority(q, history, now), q)` for each question in load order. -/
noncomputable def scoreList (questions : List Question) (history : List History)
    (now : ℚ) : List (ℝ × Question) :=
  questions.map (fun q => (compute_priority q history now, q))

/-- `select_next_question`: score every question with a single `now`, sort
descending by score, return the first entry's question.  `scored[0]` on an
empty list raises `IndexError`, the `EmptyBank` condition of the spec. -/
noncomputable def select_next_question (questions : List Question)
    (history : List History) (now : ℚ) : Except Err Question :=
  match sortDesc (scoreList questions history now) with
  | [] => .error .emptyBank
  | p :: _ => .ok p.2

/-! ## Spec-side formulas (section 4.3 of the spec, written from its words,
to be compared with the definitions transcribed from the code) -/

/-- Spec: `tricky_bonus = 0.25` if `"tricky"` is among the question's tags,
else `0`. -/
def spec_tricky_bonus (question : Question) : ℝ :=
  if "tricky" ∈ question.tags then 0.25 else 0

/-- Spec: `miss_factor = 1.0 + incorrect_total * 1.2 +
max(0, attempts_total - incorrect_total) * 0.2`. -/
def spec_miss_factor (incorrect_total attempts_total : ℤ) : ℝ :=
  1.0 + (incorrect_total : ℝ) * 1.2
    + ((max 0 (attempts_total - incorrect_total) : ℤ) : ℝ) * 0.2

/-- Spec: `slow_penalty = min(1.5, last.seconds / 4.0)`. -/
noncomputable def spec_slow_penalty (last : History) : ℝ :=
  min 1.5 ((last.seconds : ℝ) / 4.0)

/-- Spec: `decay = exp(((now - last.timestamp) / 3600) * ln(0.5) / 18)`. -/
noncomputable def spec_decay (last : History) (now : ℚ) : ℝ :=
  Real.exp ((((now : ℝ) - (last.timestamp : ℝ)) / 3600) * Real.log 0.5 / 18)

/-! ## Helper lemmas -/

theorem matching_eq_nil_iff (history : List History) (qid : String) :
    matching history qid = [] ↔ ∀ r ∈ history, r.question_id ≠ qid := by
  simp [matching, List.filter_eq_nil_iff]

theorem last_seen_eq_none_iff (history : List History) (qid : String) :
    last_seen history qid = none ↔ matching history qid = [] := by
  unfold last_seen
  cases matching history qid <;> simp

theorem matching_append (a b : List History) (qid : String) :
    matching (a ++ b) qid = matching a qid ++ matching b qid := by
  simp [matching]

theorem insertDesc_ne_nil (x : ℝ × Question) (l : List (ℝ × Question)) :
    insertDesc x l ≠ [] := by
  cases l with
  | nil => simp [insertDesc]
  | cons y ys =>
      simp only [insertDesc]
      split <;> simp

theorem parseQuestions_ne_notFound (lines : List QLine) :
    parseQuestions lines ≠ .error Err.notFound := by
  induction lines with
  | nil => simp [parseQuestions]
  | cons l rest ih =>
      cases l with
      | blank => simpa [parseQuestions] using ih
      | invalid => simp [parseQuestions]
      | record raw =>
          simp only [parseQuestions, Question.from_dict]
          cases raw.id with
          | none => simp
          | some i =>
              cases raw.type with
              | none => simp
              | some t =>
                  cases hp : parseQuestions rest with
                  | error e =>
                      have he : e ≠ Err.notFound := fun hee => ih (hee ▸ hp)
                      simp [hp, he]
                  | ok qs => simp [hp]

/-! ## Claim theorems -/

/-- C3: for every question with no matching history record, the priority is
exactly `5.0 + 0.25` when `"tricky"` is among its tags and exactly `5.0`
otherwise, for every value of `now`. -/
theorem compute_priority_unseen (question : Question) (history : List History)
    (now : ℚ) (h : ∀ r ∈ history, r.question_id ≠ question.id) :
    compute_priority question history now =
      if "tricky" ∈ question.tags then 5.0 + 0.25 else 5.0 := by
  have hm : last_seen history question.id = none :=
    (last_seen_eq_none_iff _ _).mpr ((matching_eq_nil_iff _ _).mpr h)
  simp only [compute_priority, hm, tricky_bonus]
  split <;> norm_num

theorem compute_priority_unseen_witness :
    compute_priority ⟨"q2", "hear_pick", []⟩ [] 0 = 5.0 := by
  rw [compute_priority_unseen ⟨"q2", "hear_pick", []⟩ [] 0 (by simp)]
  simp

/-- C8: for every seen question, the priority evaluated at `now` equal to the
matching record with the maximum timestamp is exactly `0` (the decay factor
is `exp 0 = 1` there). -/
theorem compute_priority_zero_at_last (question : Question) (history : List History)
    (last : History) (h : last_seen history question.id = some last) :
    compute_priority question history last.timestamp = 0 := by
  simp [compute_priority, h, decay, hours_since]

theorem compute_priority_zero_at_last_witness :
    compute_priority ⟨"q1", "hear_pick", []⟩ [⟨"q1", 1, 2, false, 50⟩] 50 = 0 :=
  compute_priority_zero_at_last ⟨"q1", "hear_pick", []⟩ _ ⟨"q1", 1, 2, false, 50⟩ rfl

/-- C2: for every question matched by at least one history record, the code's
priority equals the spec's formula
`(1 + tricky_bonus + slow_penalty) * miss_factor * (1 - decay)`, with
`slow_penalty` and `decay` computed from the matching record with the maximum
timestamp and the totals computed over the matching records. -/
theorem compute_priority_seen_formula (question : Question) (history : List History)
    (now : ℚ) (h : ∃ r ∈ history, r.question_id = question.id) :
    ∃ last, last_seen history question.id = some last ∧
      compute_priority question history now =
        (1 + spec_tricky_bonus question + spec_slow_penalty last)
          * spec_miss_factor (incorrectTotal history question.id)
              (attemptsTotal history question.id)
          * (1 - spec_decay last now) := by
  obtain ⟨r, hr, hid⟩ := h
  have hm : matching history question.id ≠ [] := by
    intro hnil
    exact ((matching_eq_nil_iff _ _).mp hnil r hr) hid
  cases hls : last_seen history question.id with
  | none => exact absurd ((last_seen_eq_none_iff _ _).mp hls) hm
  | some last =>
      refine ⟨last, rfl, ?_⟩
      simp only [compute_priority, hls, tricky_bonus, spec_tricky_bonus,
        slow_penalty, spec_slow_penalty, miss_factor, spec_miss_factor,
        decay, spec_decay, hours_since]
      norm_num

theorem compute_priority_seen_formula_witness :
    ∃ last, last_seen [⟨"q1", 2, 4, false, 0⟩] "q1" = some last ∧
      compute_priority ⟨"q1", "hear_pick", []⟩ [⟨"q1", 2, 4, false, 0⟩] 18 =
        (1 + spec_tricky_bonus ⟨"q1", "hear_pick", []⟩ + spec_slow_penalty last)
          * spec_miss_factor (incorrectTotal [⟨"q1", 2, 4, false, 0⟩] "q1")
              (attemptsTotal [⟨"q1", 2, 4, false, 0⟩] "q1")
          * (1 - spec_decay last 18) :=
  compute_priority_seen_formula ⟨"q1", "hear_pick", []⟩ [⟨"q1", 2, 4, false, 0⟩] 18
    ⟨⟨"q1", 2, 4, false, 0⟩, by simp, rfl⟩

/-- C4: `EmptyBank` is raised by `select_next_question` iff the question list
is empty; `load_questions` fails with `NotFound` iff the bank file is absent;
`load_history` on an absent file returns `[]` and raises no error. -/
theorem error_taxonomy :
    (∀ (questions : List Question) (history : List History) (now : ℚ),
        select_next_question questions history now = .error Err.emptyBank
          ↔ questions = [])
    ∧ (∀ source : Option (List QLine),
        load_questions source = .error Err.notFound ↔ source = none)
    ∧ (∀ now : ℚ, load_history none now = .ok []) := by
  refine ⟨?_, ?_, fun _ => rfl⟩
  · intro qs history now
    cases qs with
    | nil => simp [select_next_question, scoreList, sortDesc]
    | cons q qs' =>
        obtain ⟨p, t, hpt⟩ := List.exists_cons_of_ne_nil
          (insertDesc_ne_nil (compute_priority q history now, q)
            (sortDesc (scoreList qs' history now)))
        simp only [scoreList] at hpt
        simp [select_next_question, scoreList, sortDesc, hpt]
  · intro source
    cases source with
    | none => simp [load_questions]
    | some lines =>
        simp only [load_questions]
        constructor
        · intro hcontra
          exact absurd hcontra (parseQuestions_ne_notFound lines)
        · intro hcontra
          exact absurd hcontra (by simp)

/-! ## The head of the descending stable sort -/

/-- The spec's deterministic reduction, written from its words: the
maximum-scoring entry, the earliest-loaded one among ties (a later entry
replaces the running winner only when its score is strictly greater). -/
noncomputable def firstMax : List (ℝ × Question) → Option (ℝ × Question)
  | [] => none
  | x :: xs =>
      match firstMax xs with
      | none => some x
      | some m => if x.1 < m.1 then some m else some x

theorem insertDesc_head (x : ℝ × Question) (l : List (ℝ × Question)) :
    (insertDesc x l).head? =
      match l.head? with
      | none => some x
      | some y => if x.1 < y.1 then some y else some x := by
  cases l with
  | nil => simp [insertDesc]
  | cons y ys =>
      simp only [insertDesc, List.head?_cons]
      split <;> simp

theorem sortDesc_head (l : List (ℝ × Question)) :
    (sortDesc l).head? = firstMax l := by
  induction l with
  | nil => rfl
  | cons x xs ih =>
      simp only [sortDesc, firstMax, insertDesc_head, ih]

theorem firstMax_spec (l : List (ℝ × Question)) (hne : l ≠ []) :
    ∃ i : Fin l.length, firstMax l = some (l.get i) ∧
      (∀ p ∈ l, p.1 ≤ (l.get i).1) ∧
      ∀ j : ℕ, (hj : j < l.length) → j < i.val →
        (l.get ⟨j, hj⟩).1 < (l.get i).1 := by
  induction l with
  | nil => exact absurd rfl hne
  | cons x xs ih =>
      cases hxs : xs with
      | nil =>
          refine ⟨⟨0, by simp⟩, ?_, ?_, ?_⟩
          · simp [firstMax]
          · intro p hp
            simp at hp
            simp [hp]
          · intro j hj hj0
            simp at hj0
      | cons y ys =>
          obtain ⟨i, hmax, hle, hstrict⟩ := ih (by simp [hxs])
          rw [← hxs] at *
          by_cases hcmp : x.1 < (xs.get i).1
          · refine ⟨i.succ, ?_, ?_, ?_⟩
            · simp only [firstMax, hmax]
              rw [if_pos hcmp]
              simp
            · intro p hp
              rcases List.mem_cons.mp hp with hpx | hpxs
              · subst hpx
                simpa using le_of_lt hcmp
              · simpa using hle p hpxs
            · intro j hj hji
              cases j with
              | zero => simpa using hcmp
              | succ k =>
                  have hk : k < xs.length := by
                    simp at hj
                    omega
                  have := hstrict k hk (by
                    simp [Fin.succ] at hji
                    omega)
                  simpa using this
          · refine ⟨⟨0, by simp⟩, ?_, ?_, ?_⟩
            · simp only [firstMax, hmax]
              rw [if_neg hcmp]
              simp
            · intro p hp
              rcases List.mem_cons.mp hp with hpx | hpxs
              · subst hpx
                simp
              · have h1 : p.1 ≤ (xs.get i).1 := hle p hpxs
                have h2 : (xs.get i).1 ≤ x.1 := le_of_not_lt hcmp
                simpa using le_trans h1 h2
            · intro j hj hj0
              simp at hj0

/-- C1: `select_next_question` returns the question with the maximum
priority score; among tied maxima it returns the earliest one in load
order (every strictly earlier question scores strictly less).  Determinism
on identical inputs with a fixed `now` is definitional: the embedding is a
pure function of `(questions, history, now)`. -/
theorem select_next_question_first_argmax (questions : List Question)
    (history : List History) (now : ℚ) (hne : questions ≠ []) :
    ∃ i : Fin questions.length,
      select_next_question questions history now = .ok (questions.get i) ∧
      (∀ q ∈ questions,
        compute_priority q history now
          ≤ compute_priority (questions.get i) history now) ∧
      ∀ j : ℕ, (hj : j < questions.length) → j < i.val →
        compute_priority (questions.get ⟨j, hj⟩) history now
          < compute_priority (questions.get i) history now := by
  have hlne : scoreList questions history now ≠ [] := by
    simp [scoreList, hne]
  obtain ⟨i, hmax, hle, hstrict⟩ := firstMax_spec _ hlne
  have hlen : (scoreList questions history now).length = questions.length := by
    simp [scoreList]
  have hget : ∀ (k : ℕ) (hk : k < questions.length),
      (scoreList questions history now).get ⟨k, by rw [hlen]; exact hk⟩ =
        (compute_priority (questions.get ⟨k, hk⟩) history now,
          questions.get ⟨k, hk⟩) := by
    intro k hk
    simp [scoreList]
  have hi : i.val < questions.length := by rw [← hlen]; exact i.isLt
  refine ⟨⟨i.val, hi⟩, ?_, ?_, ?_⟩
  · have hhead : (sortDesc (scoreList questions history now)).head? =
        some ((scoreList questions history now).get i) := by
      rw [sortDesc_head]; exact hmax
    obtain ⟨ys, hys⟩ := List.head?_eq_some_iff.mp hhead
    have : (scoreList questions history now).get i =
        (compute_priority (questions.get ⟨i.val, hi⟩) history now,
          questions.get ⟨i.val, hi⟩) := by
      have := hget i.val hi
      simpa using this
    rw [this] at hys
    simp [select_next_question, hys]
  · intro q hq
    have hmem : (compute_priority q history now, q) ∈ scoreList questions history now :=
      List.mem_map_of_mem _ hq
    have := hle _ hmem
    rw [hget i.val hi] at this
    simpa using this
  · intro j hj hji
    have hjl : j < (scoreList questions history now).length := by rw [hlen]; exact hj
    have := hstrict j hjl hji
    rw [hget i.val hi, hget j hj] at this
    simpa using this

theorem select_next_question_first_argmax_witness :
    ∃ i : Fin ([⟨"q1", "hear_pick", ["tricky"]⟩,
        ⟨"q2", "hear_pick", []⟩] : List Question).length,
      select_next_question [⟨"q1", "hear_pick", ["tricky"]⟩,
          ⟨"q2", "hear_pick", []⟩] [] 0 =
        .ok (([⟨"q1", "hear_pick", ["tricky"]⟩,
          ⟨"q2", "hear_pick", []⟩] : List Question).get i) ∧
      (∀ q ∈ ([⟨"q1", "hear_pick", ["tricky"]⟩,
          ⟨"q2", "hear_pick", []⟩] : List Question),
        compute_priority q [] 0
          ≤ compute_priority (([⟨"q1", "hear_pick", ["tricky"]⟩,
              ⟨"q2", "hear_pick", []⟩] : List Question).get i) [] 0) ∧
      ∀ j : ℕ,
        (hj : j < ([⟨"q1", "hear_pick", ["tricky"]⟩,
            ⟨"q2", "hear_pick", []⟩] : List Question).length) → j < i.val →
        compute_priority (([⟨"q1", "hear_pick", ["tricky"]⟩,
            ⟨"q2", "hear_pick", []⟩] : List Question).get ⟨j, hj⟩) [] 0
          < compute_priority (([⟨"q1", "hear_pick", ["tricky"]⟩,
              ⟨"q2", "hear_pick", []⟩] : List Question).get i) [] 0 :=
  select_next_question_first_argmax
    [⟨"q1", "hear_pick", ["tricky"]⟩, ⟨"q2", "hear_pick", []⟩] [] 0 (by simp)

/-! ## Sign and monotonicity facts about the score's factors -/

theorem tricky_bonus_nonneg (question : Question) : 0 ≤ tricky_bonus question := by
  unfold tricky_bonus
  split <;> norm_num

theorem slow_penalty_nonneg (last : History) (h : 0 ≤ last.seconds) :
    0 ≤ slow_penalty last := by
  unfold slow_penalty
  have hs : (0 : ℝ) ≤ (last.seconds : ℝ) := by exact_mod_cast h
  exact le_min (by norm_num) (div_nonneg hs (by norm_num))

theorem incorrectTotal_nonneg (history : List History) (qid : String) :
    0 ≤ incorrectTotal history qid := by
  unfold incorrectTotal
  positivity

theorem miss_factor_nonneg (history : List History) (qid : String) :
    0 ≤ miss_factor history qid := by
  unfold miss_factor
  have h1 : (0 : ℝ) ≤ (incorrectTotal history qid : ℝ) := by
    exact_mod_cast incorrectTotal_nonneg history qid
  have h2 : (0 : ℝ) ≤
      ((max 0 (attemptsTotal history qid - incorrectTotal history qid) : ℤ) : ℝ) := by
    exact_mod_cast le_max_left 0 (attemptsTotal history qid - incorrectTotal history qid)
  have h3 := mul_nonneg h1 (by norm_num : (0 : ℝ) ≤ 1.2)
  have h4 := mul_nonneg h2 (by norm_num : (0 : ℝ) ≤ 0.2)
  linarith

theorem log_half_neg : Real.log 0.5 < 0 :=
  Real.log_neg (by norm_num) (by norm_num)

theorem decay_antitone (last : History) {now1 now2 : ℚ} (h : now1 ≤ now2) :
    decay last now2 ≤ decay last now1 := by
  unfold decay
  apply Real.exp_le_exp.mpr
  have hh : hours_since last now1 ≤ hours_since last now2 := by
    unfold hours_since
    have : (now1 : ℝ) ≤ (now2 : ℝ) := by exact_mod_cast h
    apply div_le_div_of_nonneg_right ?_ (by norm_num)
    linarith
  have := mul_le_mul_of_nonpos_right hh log_half_neg.le
  linarith

theorem decay_le_one (last : History) {now : ℚ} (h : last.timestamp ≤ now) :
    decay last now ≤ 1 := by
  unfold decay
  rw [Real.exp_le_one_iff]
  have hh : 0 ≤ hours_since last now := by
    unfold hours_since
    have : (last.timestamp : ℝ) ≤ (now : ℝ) := by exact_mod_cast h
    apply div_nonneg ?_ (by norm_num)
    linarith
  have := mul_nonneg hh (neg_nonneg.mpr log_half_neg.le)
  linarith

theorem miss_factor_mono (h1 h2 : List History) (qid : String)
    (hatt : attemptsTotal h1 qid = attemptsTotal h2 qid)
    (hinc : incorrectTotal h1 qid ≤ incorrectTotal h2 qid) :
    miss_factor h1 qid ≤ miss_factor h2 qid := by
  unfold miss_factor
  rw [hatt]
  set a := attemptsTotal h2 qid
  set i1 := incorrectTotal h1 qid
  set i2 := incorrectTotal h2 qid
  have hmax : max 0 (a - i1) ≤ max 0 (a - i2) + (i2 - i1) :=
    max_le (by have := le_max_left 0 (a - i2); omega)
      (by have := le_max_right 0 (a - i2); omega)
  have hmaxr : ((max 0 (a - i1) : ℤ) : ℝ)
      ≤ ((max 0 (a - i2) : ℤ) : ℝ) + ((i2 : ℝ) - (i1 : ℝ)) := by
    exact_mod_cast hmax
  have hincr : (i1 : ℝ) ≤ (i2 : ℝ) := by exact_mod_cast hinc
  linarith

/-- C6: for a seen question whose most recent matching record has
non-negative `seconds`, the priority is monotonically non-decreasing in
elapsed time: `now1 ≤ now2` (equivalently `hours_since` at `now1` at most
`hours_since` at `now2`, the timestamp being fixed) implies the score at
`now1` is at most the score at `now2`; question, history (hence
`miss_factor`, `slow_penalty`, `tricky_bonus`) are held fixed. -/
theorem compute_priority_mono_hours (question : Question) (history : List History)
    (last : History) (h : last_seen history question.id = some last)
    (hsec : 0 ≤ last.seconds) {now1 now2 : ℚ} (hle : now1 ≤ now2) :
    compute_priority question history now1 ≤ compute_priority question history now2 := by
  simp only [compute_priority, h]
  have hA : 0 ≤ (1 + tricky_bonus question + slow_penalty last)
      * miss_factor history question.id := by
    have := tricky_bonus_nonneg question
    have := slow_penalty_nonneg last hsec
    exact mul_nonneg (by linarith) (miss_factor_nonneg history question.id)
  have hd := decay_antitone last hle
  exact mul_le_mul_of_nonneg_left (by linarith) hA

theorem compute_priority_mono_hours_witness :
    compute_priority ⟨"q1", "hear_pick", []⟩ [⟨"q1", 1, 2, false, 0⟩] 0
      ≤ compute_priority ⟨"q1", "hear_pick", []⟩ [⟨"q1", 1, 2, false, 0⟩] 18 :=
  compute_priority_mono_hours ⟨"q1", "hear_pick", []⟩ [⟨"q1", 1, 2, false, 0⟩]
    ⟨"q1", 1, 2, false, 0⟩ rfl (by norm_num) (by norm_num)

/-- C7: the priority is monotonically non-decreasing in `incorrect_total`
when `attempts_total`, the most recent record's `seconds` and `timestamp`,
`now` (not before that timestamp) and the question's tags are held fixed:
of two histories agreeing on those, the one with at least as many incorrect
matching records scores at least as high. -/
theorem compute_priority_mono_incorrect (question : Question)
    (h1 h2 : List History) (now : ℚ) (l1 l2 : History)
    (hl1 : last_seen h1 question.id = some l1)
    (hl2 : last_seen h2 question.id = some l2)
    (hsec : l1.seconds = l2.seconds) (hts : l1.timestamp = l2.timestamp)
    (hsec0 : 0 ≤ l1.seconds) (hnow : l1.timestamp ≤ now)
    (hatt : attemptsTotal h1 question.id = attemptsTotal h2 question.id)
    (hinc : incorrectTotal h1 question.id ≤ incorrectTotal h2 question.id) :
    compute_priority question h1 now ≤ compute_priority question h2 now := by
  simp only [compute_priority, hl1, hl2]
  have hsp : slow_penalty l1 = slow_penalty l2 := by
    unfold slow_penalty
    rw [hsec]
  have hdec : decay l1 now = decay l2 now := by
    unfold decay hours_since
    rw [hts]
  rw [hsp, hdec]
  have hC : 0 ≤ 1 + tricky_bonus question + slow_penalty l2 := by
    have := tricky_bonus_nonneg question
    have := slow_penalty_nonneg l2 (hsec ▸ hsec0)
    linarith
  have hD : 0 ≤ 1 - decay l2 now := by
    have := decay_le_one l2 (hts ▸ hnow)
    linarith
  exact mul_le_mul_of_nonneg_right
    (mul_le_mul_of_nonneg_left (miss_factor_mono h1 h2 question.id hatt hinc) hC) hD

theorem compute_priority_mono_incorrect_witness :
    compute_priority ⟨"q1", "hear_pick", []⟩ [⟨"q1", 2, 4, true, 0⟩] 9
      ≤ compute_priority ⟨"q1", "hear_pick", []⟩ [⟨"q1", 2, 4, false, 0⟩] 9 :=
  compute_priority_mono_incorrect ⟨"q1", "hear_pick", []⟩
    [⟨"q1", 2, 4, true, 0⟩] [⟨"q1", 2, 4, false, 0⟩] 9
    ⟨"q1", 2, 4, true, 0⟩ ⟨"q1", 2, 4, false, 0⟩ rfl rfl rfl rfl
    (by norm_num) (by norm_num) (by decide) (by decide)

/-! ## Noninterference -/

theorem compute_priority_congr (question : Question) (h1 h2 : List History)
    (now : ℚ) (heq : matching h1 question.id = matching h2 question.id) :
    compute_priority question h1 now = compute_priority question h2 now := by
  simp only [compute_priority, last_seen, miss_factor, attemptsTotal, incorrectTotal]
  rw [heq]

/-- C10: the priority of a question depends only on the history records whose
`question_id` equals the question's id: two histories with the same matching
sublist give the same score, and histories differing only in records that
match no question of the bank (orphans) give the same selection. -/
theorem priority_noninterference :
    (∀ (question : Question) (h1 h2 : List History) (now : ℚ),
        matching h1 question.id = matching h2 question.id →
          compute_priority question h1 now = compute_priority question h2 now)
    ∧ (∀ (questions : List Question) (h1 h2 : List History) (now : ℚ),
        (∀ q ∈ questions, matching h1 q.id = matching h2 q.id) →
          select_next_question questions h1 now = select_next_question questions h2 now)
    ∧ (∀ (questions : List Question) (history orphans : List History) (now : ℚ),
        (∀ r ∈ orphans, ∀ q ∈ questions, r.question_id ≠ q.id) →
          select_next_question questions (history ++ orphans) now
            = select_next_question questions history now) := by
  have hsel : ∀ (questions : List Question) (h1 h2 : List History) (now : ℚ),
      (∀ q ∈ questions, matching h1 q.id = matching h2 q.id) →
        select_next_question questions h1 now = select_next_question questions h2 now := by
    intro qs h1 h2 now hall
    have hmap : scoreList qs h1 now = scoreList qs h2 now :=
      List.map_congr_left fun q hq => by
        rw [compute_priority_congr q h1 h2 now (hall q hq)]
    simp [select_next_question, hmap]
  refine ⟨compute_priority_congr, hsel, ?_⟩
  intro qs history orphans now horph
  apply hsel
  intro q hq
  have : matching orphans q.id = [] :=
    (matching_eq_nil_iff orphans q.id).mpr fun r hr => horph r hr q hq
  rw [matching_append, this, List.append_nil]

/-! ## History-store load and append behaviour -/

/-- A progress-log line the loader accepts: blank (skipped), or a record
whose JSON object carries the one key `History.from_dict` requires,
`question_id`. -/
def goodHLine : HLine → Prop
  | HLine.blank => True
  | HLine.invalid => False
  | HLine.record raw => raw.question_id ≠ none

/-- The record a good line contributes to the loaded history: absent
optional keys are completed with the defaults of `History.from_dict`
(`attempts = 1`, `seconds = 0.0`, `correct = False`, `timestamp =` load
time). -/
def lineToHistory (now : ℚ) : HLine → Option History
  | HLine.record raw =>
      match raw.question_id with
      | some qid =>
          some { question_id := qid,
                 attempts := raw.attempts.getD 1,
                 seconds := raw.seconds.getD 0,
                 correct := raw.correct.getD false,
                 timestamp := raw.timestamp.getD now }
      | none => none
  | _ => none

theorem parseHistory_ok_of_good (now : ℚ) (lines : List HLine)
    (h : ∀ l ∈ lines, goodHLine l) :
    parseHistory now lines = .ok (lines.filterMap (lineToHistory now)) := by
  induction lines with
  | nil => rfl
  | cons l rest ih =>
      cases l with
      | blank =>
          have := ih fun x hx => h x (List.mem_cons_of_mem _ hx)
          simpa [parseHistory, lineToHistory] using this
      | invalid => exact absurd (h _ (List.mem_cons_self _ _)) (by simp [goodHLine])
      | record raw =>
          have hqid : raw.question_id ≠ none := h _ (List.mem_cons_self _ _)
          cases hq : raw.question_id with
          | none => exact absurd hq hqid
          | some qid =>
              have hrest := ih fun x hx => h x (List.mem_cons_of_mem _ hx)
              simp [parseHistory, History.from_dict, hq, hrest, lineToHistory]

theorem parseHistory_ok_iff (now : ℚ) (lines : List HLine) :
    (∃ recs, parseHistory now lines = .ok recs) ↔ ∀ l ∈ lines, goodHLine l := by
  constructor
  · intro ⟨recs, hrecs⟩
    induction lines generalizing recs with
    | nil => simp
    | cons l rest ih =>
        cases l with
        | blank =>
            intro x hx
            rcases List.mem_cons.mp hx with hxl | hxr
            · subst hxl; trivial
            · exact ih recs (by simpa [parseHistory] using hrecs) x hxr
        | invalid => simp [parseHistory] at hrecs
        | record raw =>
            cases hq : raw.question_id with
            | none => simp [parseHistory, History.from_dict, hq] at hrecs
            | some qid =>
                simp only [parseHistory, History.from_dict, hq] at hrecs
                cases hp : parseHistory now rest with
                | error e => rw [hp] at hrecs; simp at hrecs
                | ok rs =>
                    intro x hx
                    rcases List.mem_cons.mp hx with hxl | hxr
                    · subst hxl; simp [goodHLine, hq]
                    · exact ih rs hp x hxr
  · intro h
    exact ⟨_, parseHistory_ok_of_good now lines h⟩

/-- C5's counterexample: a line that is valid JSON but lacks the `attempts`,
`seconds`, `correct` and `timestamp` fields does NOT abort the load with a
`FormatError`; `load_history` succeeds and silently completes the record
with default values. -/
theorem load_history_defaults_counterexample :
    load_history (some [HLine.record ⟨some "q1", none, none, none, none⟩]) 100
        = .ok [⟨"q1", 1, 0, false, 100⟩]
    ∧ ∀ e : Err,
        load_history (some [HLine.record ⟨some "q1", none, none, none, none⟩]) 100
          ≠ .error e := by
  refine ⟨rfl, fun e h => ?_⟩
  rw [show load_history (some [HLine.record ⟨some "q1", none, none, none, none⟩]) 100
      = .ok [⟨"q1", 1, 0, false, 100⟩] from rfl] at h
  exact Except.noConfusion h

/-- C5 as amended: the history load aborts with an error and returns no
partial result exactly when some line is invalid structured data or lacks
`question_id` (the only field `History.from_dict` requires); a line missing
any of the other fields is NOT rejected — it is completed with the defaults
`attempts = 1`, `seconds = 0.0`, `correct = False`, `timestamp =` load
time. -/
theorem load_history_ok_iff_good (lines : List HLine) (now : ℚ) :
    ((∃ recs, load_history (some lines) now = .ok recs)
        ↔ ∀ l ∈ lines, goodHLine l)
    ∧ ((∀ l ∈ lines, goodHLine l) →
        load_history (some lines) now = .ok (lines.filterMap (lineToHistory now))) :=
  ⟨parseHistory_ok_iff now lines, parseHistory_ok_of_good now lines⟩

/-! ## Round trip of `record_result` -/

theorem parseHistory_append_line (now : ℚ) (lines : List HLine)
    (recs : List History) (qid : String) (att : ℤ) (sec : ℚ) (cor : Bool)
    (wts : ℚ) (h : parseHistory now lines = .ok recs) :
    parseHistory now (lines ++ [record_result_line qid att sec cor wts])
      = .ok (recs ++ [⟨qid, att, sec, cor, wts⟩]) := by
  induction lines generalizing recs with
  | nil =>
      simp only [parseHistory] at h
      cases h
      rfl
  | cons l rest ih =>
      cases l with
      | blank =>
          simp only [parseHistory] at h ⊢
          exact ih recs h
      | invalid => simp [parseHistory] at h
      | record raw =>
          cases hq : raw.question_id with
          | none => simp [parseHistory, History.from_dict, hq] at h
          | some q =>
              simp only [parseHistory, History.from_dict, hq] at h ⊢
              cases hp : parseHistory now rest with
              | error e => rw [hp] at h; simp at h
              | ok rs =>
                  rw [hp] at h
                  simp only [Except.ok.injEq] at h
                  simp only [List.append_eq]
                  rw [ih rs hp]
                  simp [← h]

/-- C9: appending an outcome via `record_result` and reloading the history
yields every previously loaded record unchanged, in order, followed by one
new record carrying exactly the written `question_id`, `attempts`,
`seconds`, `correct` and the write-time `timestamp` (the embedding persists
rationals, so "within the persisted precision" is exact equality). -/
theorem record_result_roundtrip (file : Option (List HLine))
    (loadNow writeNow : ℚ) (qid : String) (att : ℤ) (sec : ℚ) (cor : Bool)
    (recs : List History) (h : load_history file loadNow = .ok recs) :
    load_history (some (record_result qid att sec cor writeNow file)) loadNow
      = .ok (recs ++ [⟨qid, att, sec, cor, writeNow⟩]) := by
  cases file with
  | none =>
      simp only [load_history, Except.ok.injEq] at h
      subst h
      rfl
  | some lines =>
      simp only [load_history] at h
      simpa [load_history, record_result] using
        parseHistory_append_line loadNow lines recs qid att sec cor writeNow h

theorem record_result_roundtrip_witness :
    load_history (some (record_result "q1" 2 (7/2) true 500 (some []))) 0
      = .ok ([] ++ [⟨"q1", 2, 7/2, true, 500⟩]) :=
  record_result_roundtrip (some []) 0 500 "q1" 2 (7/2) true [] rfl

end Flashbrain
